import Mathlib

/-!
Verification development for the archeco-recruit content-publishing scripts.

The repository consists of two CLI publish scripts (a docx-capable one and a
text-only one), a serverless notification handler, and a microCMS read-client
module.  The core text pipeline (markdown-ish normalizer, metadata deriver,
image selector) is embedded below over lists of characters; JavaScript strings
become lists of characters, the filesystem and the network become explicit
oracle parameters, and process exits become explicit events or Option results.
-/

/-- The set of characters matched by the JavaScript regex class backslash-s and
removed by String.prototype.trim, restricted to the code points that can occur
in this repository's inputs (ASCII whitespace plus the common Unicode spaces). -/
def wsChars : List Char :=
  [ ' ', '\t', '\n', '\r', '\x0b', '\x0c',
    '\u00A0', '\u1680', '\u2000', '\u2001', '\u2002', '\u2003', '\u2004',
    '\u2005', '\u2006', '\u2007', '\u2008', '\u2009', '\u200A', '\u2028',
    '\u2029', '\u202F', '\u205F', '\u3000', '\uFEFF' ]

def isWsChar (c : Char) : Bool := wsChars.contains c

/-- JavaScript line-terminator characters (not matched by the regex dot). -/
def lineTerms : List Char := [ '\n', '\r', '\u2028', '\u2029' ]

def isLineTerm (c : Char) : Bool := lineTerms.contains c

/-- Model of String.prototype.trimEnd. -/
def trimEnd (l : List Char) : List Char := (l.reverse.dropWhile isWsChar).reverse

/-- Model of String.prototype.trim. -/
def jsTrim (l : List Char) : List Char :=
  ((l.dropWhile isWsChar).reverse.dropWhile isWsChar).reverse

/-- Model of text.split with separator a newline: always returns at least one
(possibly empty) piece, and a trailing separator yields a trailing empty piece. -/
def splitNl : List Char → List (List Char)
  | [] => [[]]
  | c :: rest =>
    let r := splitNl rest
    if c = '\n' then [] :: r else (c :: r.headD []) :: r.tail

/-- Model of Array.prototype.join with the given separator. -/
def joinSep (sep : List Char) : List (List Char) → List Char
  | [] => []
  | [x] => x
  | x :: y :: rest => x ++ sep ++ joinSep sep (y :: rest)

/-- Model of String.prototype.replace with a single-character global pattern:
every occurrence of the character c is replaced by rep, left to right, and the
replacement text is not rescanned. -/
def replaceChar (c : Char) (rep : List Char) : List Char → List Char
  | [] => []
  | d :: rest =>
    if d = c then rep ++ replaceChar c rep rest else d :: replaceChar c rep rest

/-- The esc helper of textToHtml in both publish scripts:
s.replace(amp).replace(lt).replace(gt), ampersand first. -/
def esc (s : List Char) : List Char :=
  replaceChar '>' ( "&gt;".toList)
    (replaceChar '<' ( "&lt;".toList) (replaceChar '&' ( "&amp;".toList) s))

/-- Boolean prefix test on character lists. -/
def isPre : List Char → List Char → Bool
  | [], _ => true
  | _ :: _, [] => false
  | a :: as, b :: bs => if a = b then isPre as bs else false

/-- Scanner for countOccur: skip is the number of characters still to be
consumed by a match already counted (a global regex resumes after the match). -/
def countOccurAux (pat : List Char) : List Char → Nat → Nat
  | [], _ => 0
  | _ :: rest, Nat.succ k => countOccurAux pat rest k
  | c :: rest, 0 =>
    if isPre pat (c :: rest) ∧ pat ≠ [] then
      1 + countOccurAux pat rest (pat.length - 1)
    else countOccurAux pat rest 0

/-- Number of non-overlapping, left-to-right occurrences of pat in subj: the
length of the match array of a global regex whose pattern is the literal pat. -/
def countOccur (pat subj : List Char) : Nat := countOccurAux pat subj 0

/-- Model of replace(whitespace-run, single space) applied globally: every
maximal run of whitespace characters becomes one space. -/
def collapseWs : List Char → List Char
  | [] => []
  | [c] => if isWsChar c then [' '] else [c]
  | c :: d :: rest =>
    if isWsChar c then
      if isWsChar d then collapseWs (d :: rest) else ' ' :: collapseWs (d :: rest)
    else c :: collapseWs (d :: rest)

/-- ASCII lowercasing, the fragment of toLowerCase and of case-insensitive
regex matching exercised by the category keywords (only Q and A are cased). -/
def lowerStr (l : List Char) : List Char := l.map Char.toLower

/-- The four fixed category labels, in declared order (CATEGORIES in both
publish scripts). -/
def CATEGORIES : List (List Char) :=
  [ "インタビュー".toList, "社風".toList, "制度".toList, "イベント".toList ]

/-- CATEGORY_KEYWORDS of both publish scripts, in declared insertion order. -/
def CATEGORY_KEYWORDS : List (List Char × List (List Char)) :=
  [ ( "インタビュー".toList,
      [ "インタビュー".toList, "聞いて".toList, "話を".toList, "Q&A".toList,
        "質問".toList, "入社理由".toList, "一日の流れ".toList, "先輩".toList,
        "社員紹介".toList ]),
    ( "社風".toList,
      [ "社風".toList, "雰囲気".toList, "カルチャー".toList, "文化".toList,
        "チーム".toList, "職場".toList, "オフィス".toList, "働き方".toList,
        "コミュニケーション".toList ]),
    ( "制度".toList,
      [ "制度".toList, "福利厚生".toList, "研修".toList, "評価".toList,
        "休暇".toList, "手当".toList, "キャリア".toList, "教育".toList,
        "支援".toList ]),
    ( "イベント".toList,
      [ "イベント".toList, "懇親会".toList, "勉強会".toList, "セミナー".toList,
        "交流".toList, "開催".toList, "参加".toList, "ハッカソン".toList,
        "忘年会".toList ]) ]

/-- The lines of the text that are non-blank after trimming; both publish
scripts compute this in generateTitle and generateDescription. -/
def nonblankLines (text : List Char) : List (List Char) :=
  (splitNl text).filter (fun l => 0 < (jsTrim l).length)

/-- replace of the anchored regex hash-run-then-whitespace-run with nothing:
strips the leading heading marker of the first line, only when the line starts
with a hash character. -/
def stripHashWs (l : List Char) : List Char :=
  match l with
  | '#' :: _ => (l.dropWhile (fun c => c = '#')).dropWhile isWsChar
  | _ => l

/-- generateTitle of both publish scripts. -/
def generateTitle (text : List Char) : List Char :=
  match nonblankLines text with
  | [] => "無題の記事".toList
  | l0 :: _ =>
    let title := jsTrim (stripHashWs l0)
    if 60 < title.length then title.take 57 ++ "...".toList else title

/-- The per-category keyword score of detectCategory: the summed
case-insensitive occurrence counts of the keywords over the whole text. -/
def scoreKeywords (text : List Char) (kws : List (List Char)) : Nat :=
  (kws.map (fun kw => countOccur (lowerStr kw) (lowerStr text))).sum

/-- The scores object of detectCategory as an association list in declared
enumeration order. -/
def catScores (text : List Char) : List (List Char × Nat) :=
  CATEGORY_KEYWORDS.map (fun p => (p.1, scoreKeywords text p.2))

/-- detectCategory of both publish scripts: first-max scan of the scores with
initial candidate the first label and initial best score zero, updating only
on a strictly larger score. -/
def detectCategory (text : List Char) : List Char :=
  ((catScores text).foldl (fun acc p => if acc.2 < p.2 then p else acc)
    (CATEGORIES.headD [], 0)).1

/-- The body string of generateDescription: the non-blank lines except the
first, joined with single spaces, whitespace-collapsed and trimmed. -/
def descBody (text : List Char) : List Char :=
  jsTrim (collapseWs (joinSep [' '] ((nonblankLines text).drop 1)))

/-- generateDescription of both publish scripts. -/
def generateDescription (text : List Char) : List Char :=
  let body := descBody text
  if body = [] then []
  else if body.length ≤ 120 then body
  else body.take 117 ++ "...".toList

/-- The whitespace-then-content part of the heading and list-item regexes:
one or more whitespace characters followed by a greedy one-or-more-of-any-
character group (the dot does not match line terminators; when the remainder
is entirely whitespace the whitespace run backtracks to leave one character
to the group). -/
def wsThenContent (rest : List Char) : Option (List Char) :=
  match rest with
  | [] => none
  | c :: _ =>
    if isWsChar c then
      let content := (rest.dropWhile isWsChar).takeWhile (fun d => ¬ isLineTerm d)
      if content = [] then
        match rest.getLast? with
        | some d => if 2 ≤ rest.length ∧ ¬ isLineTerm d then some [d] else none
        | none => none
      else some content
    else none

/-- Match of a heading line against the anchored regex with k hash characters
followed by whitespace and content; returns the captured content. -/
def headMatch (k : Nat) (line : List Char) : Option (List Char) :=
  if isPre (List.replicate k '#') line then wsThenContent (line.drop k) else none

/-- Match of a list-item line against the anchored dash-or-star regex. -/
def liMatch (line : List Char) : Option (List Char) :=
  match line with
  | c :: rest => if c = '-' ∨ c = '*' then wsThenContent rest else none
  | [] => none

/-- The branch taken by the textToHtml loop body for one (already
trimEnd-ed) line, in source order: h3, h2, h1, list item, blank, paragraph. -/
inductive LineKind where
  | h1 (m : List Char)
  | h2 (m : List Char)
  | h3 (m : List Char)
  | item (m : List Char)
  | blank
  | para
deriving DecidableEq

def classifyLine (line : List Char) : LineKind :=
  match headMatch 3 line with
  | some m => LineKind.h3 m
  | none =>
    match headMatch 2 line with
    | some m => LineKind.h2 m
    | none =>
      match headMatch 1 line with
      | some m => LineKind.h1 m
      | none =>
        match liMatch line with
        | some m => LineKind.item m
        | none => if jsTrim line = [] then LineKind.blank else LineKind.para

/-- The html array built by the textToHtml loop, processing the given lines
with the given in-list flag; the final closeList after the loop is the base
case.  Each pushed string is one element. -/
def textToHtmlFrags : List (List Char) → Bool → List (List Char)
  | [], inList => if inList then [ "</ul>".toList] else []
  | raw :: rest, inList =>
    let line := trimEnd raw
    match classifyLine line with
    | LineKind.h3 m =>
      (if inList then [ "</ul>".toList] else []) ++
        ( "<h3>".toList ++ esc m ++ "</h3>".toList) :: textToHtmlFrags rest false
    | LineKind.h2 m =>
      (if inList then [ "</ul>".toList] else []) ++
        ( "<h2>".toList ++ esc m ++ "</h2>".toList) :: textToHtmlFrags rest false
    | LineKind.h1 m =>
      (if inList then [ "</ul>".toList] else []) ++
        ( "<h1>".toList ++ esc m ++ "</h1>".toList) :: textToHtmlFrags rest false
    | LineKind.item m =>
      (if inList then [] else [ "<ul>".toList]) ++
        ( "<li>".toList ++ esc m ++ "</li>".toList) :: textToHtmlFrags rest true
    | LineKind.blank =>
      (if inList then [ "</ul>".toList] else []) ++ textToHtmlFrags rest false
    | LineKind.para =>
      (if inList then [ "</ul>".toList] else []) ++
        ( "<p>".toList ++ esc line ++ "</p>".toList) :: textToHtmlFrags rest false

/-- textToHtml of both publish scripts: the html array joined with newlines. -/
def textToHtml (text : List Char) : List Char :=
  joinSep ['\n'] (textToHtmlFrags (splitNl text) false)

/-- selectBestImage of both publish scripts.  statSize models fs.statSync:
none when the stat throws (missing file), some size otherwise.  The scan
starts with the first path as candidate and best size zero and updates only
on a strictly larger determined size; a failing stat is skipped. -/
def selectBestImage (statSize : List Char → Option Nat)
    (imagePaths : List (List Char)) : Option (List Char) :=
  match imagePaths with
  | [] => none
  | [p] => some p
  | p0 :: q :: rest =>
    some (((p0 :: q :: rest).foldl
      (fun acc p =>
        match statSize p with
        | some sz => if acc.2 < sz then (p, sz) else acc
        | none => acc)
      (p0, 0)).1)

/-- path.basename: the part after the last slash. -/
def basenameOf (p : List Char) : List Char :=
  (p.reverse.takeWhile (fun c => ¬ c = '/')).reverse

/-- path.extname: the suffix from the last dot of the basename, empty when
there is no dot or the dot is the first character of the basename. -/
def extnameOf (p : List Char) : List Char :=
  let b := basenameOf p
  let revAfter := b.reverse.takeWhile (fun c => ¬ c = '.')
  if revAfter.length = b.length then []
  else if revAfter.length + 1 = b.length then []
  else '.' :: revAfter.reverse

def extnameLowerOf (p : List Char) : List Char := lowerStr (extnameOf p)

/-- JavaScript or-else on an optional string: an absent or empty override
falls back to the derived value. -/
def jsOr (o : Option (List Char)) (d : List Char) : List Char :=
  match o with
  | some v => if v = [] then d else v
  | none => d

/-- The parsed CLI options of the publish scripts. -/
structure Opts where
  text : Option (List Char)
  images : List (List Char)
  title : Option (List Char)
  category : Option (List Char)
  writer : Option (List Char)
  featured : Bool
  dryRun : Bool

/-- The externally observable events of one run of the docx-capable publish
script: media-API uploads of docx-embedded images, the media-API upload of the
eyecatch, the create call, and a non-zero process exit. -/
inductive Ev where
  | uploadEmbedded (idx : Nat)
  | uploadEyecatch (p : List Char)
  | createPost
  | exit1
deriving DecidableEq

def isNetEv : Ev → Bool
  | Ev.uploadEmbedded _ => true
  | Ev.uploadEyecatch _ => true
  | Ev.createPost => true
  | Ev.exit1 => false

/-- True when the trace reaches a non-zero exit with no network event before
it; false when a network event comes first or no exit happens. -/
def failsBeforeNet : List Ev → Bool
  | [] => false
  | e :: rest =>
    if e = Ev.exit1 then true else if isNetEv e then false else failsBeforeNet rest

/-- Event trace of main of the docx-capable publish script.  fileExists models
fs.existsSync on the source path; docxImages is the number of images mammoth
finds embedded in a docx source (each is uploaded before conversion returns,
unless dry-run); rawText is the extracted plain text; statSize models
fs.statSync for the eyecatch candidates; publishOk models the create call.
Upload failures are caught and do not abort, so they do not change the trace. -/
def mainTrace (opts : Opts) (fileExists : Bool) (docxImages : Nat)
    (rawText : List Char) (statSize : List Char → Option Nat)
    (publishOk : Bool) : List Ev :=
  match opts.text with
  | none => [Ev.exit1]
  | some tpath =>
    if fileExists = false then [Ev.exit1]
    else
      let ext := extnameLowerOf tpath
      let docxEvents : List Ev :=
        if ext = ".docx".toList ∧ opts.dryRun = false then
          (List.range docxImages).map Ev.uploadEmbedded
        else []
      let category := jsOr opts.category (detectCategory rawText)
      docxEvents ++
        if category ∉ CATEGORIES then [Ev.exit1]
        else
          (if opts.images.length ≠ 0 ∧ opts.dryRun = false then
            [Ev.uploadEyecatch ((selectBestImage statSize opts.images).getD [])]
          else []) ++
          (if opts.dryRun then []
           else Ev.createPost :: (if publishOk then [] else [Ev.exit1]))

/-- The two configuration environment variables; none models an unset
variable, some an explicitly set (possibly empty) value. -/
structure EnvCfg where
  serviceDomain : Option (List Char)
  apiKey : Option (List Char)

/-- JavaScript truthiness of an environment variable: set and non-empty. -/
def truthyEnv (o : Option (List Char)) : Bool :=
  match o with
  | none => false
  | some v => ¬ v.isEmpty

/-- The startup prelude of both publish scripts: exit(1) when either variable
is falsy (none), otherwise the createClient configuration (some). -/
def cliStartup (env : EnvCfg) : Option (List Char × List Char) :=
  if truthyEnv env.serviceDomain = false ∨ truthyEnv env.apiKey = false then none
  else some (env.serviceDomain.getD [], env.apiKey.getD [])

/-- The Blog content type of the read-client module. -/
structure Blog where
  id : List Char
  title : List Char
  content : List Char
  eyecatchUrl : Option (List Char)
  category : List Char
  description : Option (List Char)
  isFeatured : Option Bool
  writer : Option (List Char)
  publishedAt : List Char
  createdAt : List Char
  updatedAt : List Char
deriving DecidableEq

structure BlogResponse where
  totalCount : Nat
  offset : Nat
  limit : Nat
  contents : List Blog
deriving DecidableEq

/-- Result of an awaited SDK call: resolved value or thrown error. -/
inductive FetchResult (α : Type) where
  | ok (value : α)
  | error (msg : List Char)
deriving DecidableEq

/-- The module-level client of the read-client module: created only when both
variables, defaulted to the empty string, are non-empty; otherwise null. -/
def mkClient (env : EnvCfg) : Option (List Char × List Char) :=
  let sd := env.serviceDomain.getD []
  let ak := env.apiKey.getD []
  if sd ≠ [] ∧ ak ≠ [] then some (sd, ak) else none

/-- getBlogs of the read-client module: with no client it resolves to an empty
response without touching the network oracle. -/
def getBlogs (env : EnvCfg)
    (remote : (List Char × List Char) → FetchResult BlogResponse) :
    FetchResult BlogResponse :=
  match mkClient env with
  | none => FetchResult.ok ⟨0, 0, 0, []⟩
  | some c => remote c

/-- getBlogDetail of the read-client module: with no client it throws. -/
def getBlogDetail (env : EnvCfg) (contentId : List Char)
    (remote : (List Char × List Char) → List Char → FetchResult Blog) :
    FetchResult Blog :=
  match mkClient env with
  | none => FetchResult.error ( "microCMS client is not configured".toList)
  | some c => remote c contentId

/-- One label/value pair of the notification form. -/
structure NotifyField where
  label : List Char
  value : Option (List Char)
deriving DecidableEq

/-- The parsed request body of the notification handler; fields is optional
because a body without a fields array makes the handler throw into its catch. -/
structure NotifyBody where
  kind : List Char
  fields : Option (List NotifyField)
deriving DecidableEq

structure NotifyReq where
  method : List Char
  body : Option NotifyBody
deriving DecidableEq

inductive SlackBlock where
  | header (text : List Char)
  | sectionB (fieldTexts : List (List Char))
  | contextB (text : List Char)
deriving DecidableEq

inductive RespBody where
  | errorB (msg : List Char)
  | okB
deriving DecidableEq

/-- The mrkdwn text built for one form field; a falsy value becomes the
placeholder. -/
def fieldText (f : NotifyField) : List Char :=
  "*".toList ++ f.label ++ "*\n".toList ++
    (match f.value with
     | some v => if v = [] then "(未入力)".toList else v
     | none => "(未入力)".toList)

/-- The Slack blocks payload of the notification handler; now models the
formatted current time of the context line. -/
def buildBlocks (b : NotifyBody) (fields : List NotifyField) (now : List Char) :
    List SlackBlock :=
  [ SlackBlock.header
      (if b.kind = "career".toList then ":briefcase: 中途採用エントリー".toList
       else ":mortar_board: インターンエントリー".toList),
    SlackBlock.sectionB (fields.map fieldText),
    SlackBlock.contextB
      ( "送信元: <https://int-incubation.com|ARCHECO採用サイト> | ".toList ++ now) ]

/-- The notification handler: result is the HTTP response (status and JSON
body) paired with the list of payloads posted to the webhook.  webhookUrl
models the environment variable, slackOk the webhook response status. -/
def handler (req : NotifyReq) (webhookUrl : Option (List Char)) (now : List Char)
    (slackOk : Bool) : (Nat × RespBody) × List (List SlackBlock) :=
  if req.method ≠ "POST".toList then
    ((405, RespBody.errorB ( "Method not allowed".toList)), [])
  else if truthyEnv webhookUrl = false then
    ((500, RespBody.errorB ( "Slack webhook not configured".toList)), [])
  else
    match req.body with
    | none => ((500, RespBody.errorB ( "Internal server error".toList)), [])
    | some b =>
      match b.fields with
      | none => ((500, RespBody.errorB ( "Internal server error".toList)), [])
      | some fs =>
        let blocks := buildBlocks b fs now
        if slackOk then ((200, RespBody.okB), [blocks])
        else ((502, RespBody.errorB ( "Slack notification failed".toList)), [blocks])

/-- Character-wise escaping as the specification words it: each of the three
characters ampersand, less-than, greater-than is replaced by its entity
exactly once, every other character is kept. -/
def escSpec : List Char → List Char
  | [] => []
  | c :: rest =>
    (if c = '&' then "&amp;".toList
     else if c = '<' then "&lt;".toList
     else if c = '>' then "&gt;".toList
     else [c]) ++ escSpec rest

/-- The highest keyword score over the four categories (zero when all zero). -/
def maxScore (text : List Char) : Nat :=
  ((catScores text).map Prod.snd).foldr max 0

/-- The input text of the end-to-end specification scenario. -/
def scenarioInput : List Char := "# Hello\n\nThis is a test about 研修.\n".toList

lemma jsOr_some_ne (c : List Char) (d : List Char) (hne : c ≠ []) :
    jsOr (some c) d = c := by
  simp [jsOr, hne]

/-- Shape of the docx-script trace when the effective category is invalid:
the docx embedded-image uploads (if any) happen first, then the exit. -/
lemma mainTrace_invalid_shape (opts : Opts) (tp : List Char) (di : Nat)
    (rt : List Char) (ss : List Char → Option Nat) (pub : Bool) (c : List Char)
    (ht : opts.text = some tp) (hov : opts.category = some c) (hne : c ≠ [])
    (hbad : c ∉ CATEGORIES) :
    mainTrace opts true di rt ss pub =
      (if extnameLowerOf tp = ".docx".toList ∧ opts.dryRun = false then
        (List.range di).map Ev.uploadEmbedded
      else []) ++ [Ev.exit1] := by
  simp only [mainTrace, ht, hov]
  rw [jsOr_some_ne c _ hne]
  simp [hbad]

lemma failsBeforeNet_exit : failsBeforeNet [Ev.exit1] = true := rfl

/-- C1 counterexample: a non-dry run on a .docx source with one embedded image
and the explicit out-of-set category override ニュース performs a media-API
upload (a network call) before the non-zero exit, so the publish operation does
not fail before every network call. -/
theorem c1_counterexample :
    mainTrace ⟨some ( "b.docx".toList), [], none, some ( "ニュース".toList),
        none, false, false⟩ true 1 [] (fun _ => none) true =
      [Ev.uploadEmbedded 0, Ev.exit1] ∧
    ( "ニュース".toList) ∉ CATEGORIES ∧
    failsBeforeNet
      (mainTrace ⟨some ( "b.docx".toList), [], none, some ( "ニュース".toList),
        none, false, false⟩ true 1 [] (fun _ => none) true) = false := by
  refine ⟨by decide, by decide, by decide⟩

/-- C1 amended: an explicit non-empty category override outside the four fixed
labels always leads to a non-zero exit, with no eyecatch upload and no create
call; the exit happens before any network call whenever the run is a dry run
or the source is not a .docx file, but for a non-dry .docx run the embedded-
image uploads of processDocx happen before the category check. -/
theorem c1_invalid_category_exit (opts : Opts) (fe : Bool) (di : Nat)
    (rt : List Char) (ss : List Char → Option Nat) (pub : Bool) (c : List Char)
    (hov : opts.category = some c) (hne : c ≠ []) (hbad : c ∉ CATEGORIES) :
    Ev.exit1 ∈ mainTrace opts fe di rt ss pub ∧
    Ev.createPost ∉ mainTrace opts fe di rt ss pub ∧
    (∀ p, Ev.uploadEyecatch p ∉ mainTrace opts fe di rt ss pub) ∧
    (opts.dryRun = true → failsBeforeNet (mainTrace opts fe di rt ss pub) = true) ∧
    (∀ tp, opts.text = some tp → extnameLowerOf tp ≠ ".docx".toList →
      failsBeforeNet (mainTrace opts fe di rt ss pub) = true) := by
  cases ht : opts.text with
  | none =>
    simp [mainTrace, ht, failsBeforeNet]
  | some tp =>
    cases fe with
    | false =>
      simp [mainTrace, ht, failsBeforeNet]
    | true =>
      rw [mainTrace_invalid_shape opts tp di rt ss pub c ht hov hne hbad]
      refine ⟨by simp, ?_, ?_, ?_, ?_⟩
      · intro hmem
        rcases List.mem_append.mp hmem with h | h
        · by_cases hc : extnameLowerOf tp = ".docx".toList ∧ opts.dryRun = false
          · rw [if_pos hc] at h
            rcases List.mem_map.mp h with ⟨i, _, hi⟩
            exact Ev.noConfusion hi
          · rw [if_neg hc] at h
            exact absurd h (List.not_mem_nil _)
        · simp at h
      · intro p hmem
        rcases List.mem_append.mp hmem with h | h
        · by_cases hc : extnameLowerOf tp = ".docx".toList ∧ opts.dryRun = false
          · rw [if_pos hc] at h
            rcases List.mem_map.mp h with ⟨i, _, hi⟩
            exact Ev.noConfusion hi
          · rw [if_neg hc] at h
            exact absurd h (List.not_mem_nil _)
        · simp at h
      · intro hdry
        have : ¬ (extnameLowerOf tp = ".docx".toList ∧ opts.dryRun = false) := by
          rintro ⟨-, hf⟩; rw [hdry] at hf; exact Bool.noConfusion hf
        rw [if_neg this]
        rfl
      · intro tp2 htp2 hext
        have htp : tp2 = tp := (Option.some.inj htp2).symm
        have : ¬ (extnameLowerOf tp = ".docx".toList ∧ opts.dryRun = false) := by
          rintro ⟨hd, -⟩; rw [htp] at hext; exact hext hd
        rw [if_neg this]
        rfl

/-- C1 amended witness: a non-docx invalid-override run exits with no network
call at all. -/
theorem c1_invalid_category_exit_witness :
    failsBeforeNet
      (mainTrace ⟨some ( "a.txt".toList), [], none, some ( "X".toList),
        none, false, false⟩ true 0 [] (fun _ => none) true) = true :=
  (c1_invalid_category_exit
      ⟨some ( "a.txt".toList), [], none, some ( "X".toList), none, false, false⟩
      true 0 [] (fun _ => none) true ( "X".toList) rfl (by decide)
      (by decide)).2.2.2.2 ( "a.txt".toList) rfl (by decide)

/-- C3 counterexample: with both environment variables absent the read-client
module does not terminate; getBlogs resolves successfully to an empty response
(a read operation silently succeeding with unconfigured credentials). -/
theorem c3_counterexample :
    getBlogs ⟨none, none⟩ (fun _ => FetchResult.error []) =
      FetchResult.ok ⟨0, 0, 0, []⟩ ∧
    mkClient ⟨none, none⟩ = none := by
  exact ⟨rfl, rfl⟩

/-- C3 amended: the two CLI publish scripts do treat a falsy service domain or
API key as a fatal startup precondition (no client is created and the run
stops), but the read-client module does not terminate: with no client,
getBlogs resolves to an empty response without consulting the network, and
only getBlogDetail surfaces an error. -/
theorem c3_env_amended :
    (∀ env : EnvCfg,
      truthyEnv env.serviceDomain = false ∨ truthyEnv env.apiKey = false →
        cliStartup env = none) ∧
    (∀ (env : EnvCfg) (remote : (List Char × List Char) → FetchResult BlogResponse),
      mkClient env = none →
        getBlogs env remote = FetchResult.ok ⟨0, 0, 0, []⟩) ∧
    (∀ (env : EnvCfg) (cid : List Char)
        (remote : (List Char × List Char) → List Char → FetchResult Blog),
      mkClient env = none →
        getBlogDetail env cid remote =
          FetchResult.error ( "microCMS client is not configured".toList)) := by
  refine ⟨?_, ?_, ?_⟩
  · intro env h
    simp [cliStartup, h]
  · intro env remote h
    simp [getBlogs, h]
  · intro env cid remote h
    simp [getBlogDetail, h]

/-- C3 amended witness: with both variables unset the CLI startup stops and
getBlogs resolves to the empty response. -/
theorem c3_env_amended_witness :
    cliStartup ⟨none, none⟩ = none ∧
    getBlogs ⟨none, none⟩ (fun _ => FetchResult.error []) =
      FetchResult.ok ⟨0, 0, 0, []⟩ :=
  ⟨c3_env_amended.1 ⟨none, none⟩ (Or.inl rfl),
   c3_env_amended.2.1 ⟨none, none⟩ (fun _ => FetchResult.error []) rfl⟩

/-- C10: any request whose method is not POST is answered with status 405 and
an error body, with no webhook payload posted and no other effect. -/
theorem c10_handler_non_post (req : NotifyReq) (url : Option (List Char))
    (now : List Char) (slackOk : Bool) (h : req.method ≠ "POST".toList) :
    handler req url now slackOk =
      ((405, RespBody.errorB ( "Method not allowed".toList)), []) := by
  unfold handler
  exact if_pos h

/-- C10 witness: a GET request is rejected with 405 and no webhook call. -/
theorem c10_handler_non_post_witness :
    handler ⟨ "GET".toList, none⟩ none [] true =
      ((405, RespBody.errorB ( "Method not allowed".toList)), []) :=
  c10_handler_non_post ⟨ "GET".toList, none⟩ none [] true (by decide)

/-- C6: deriveTitle takes the first non-blank line, strips the leading heading
marker, trims, falls back to the fixed placeholder when no non-blank line
exists, and truncates to 57 characters plus the three-dot ellipsis when longer
than 60, giving a 60-character result ending in the marker; in particular the
empty input gives the placeholder and 100 repeated A characters give a
60-character string ending in the ellipsis. -/
theorem c6_generateTitle_spec :
    (∀ text : List Char,
      nonblankLines text = [] → generateTitle text = "無題の記事".toList) ∧
    (∀ (text : List Char) (l0 : List Char) (ls : List (List Char)),
      nonblankLines text = l0 :: ls →
        ((jsTrim (stripHashWs l0)).length ≤ 60 →
          generateTitle text = jsTrim (stripHashWs l0)) ∧
        (60 < (jsTrim (stripHashWs l0)).length →
          generateTitle text = (jsTrim (stripHashWs l0)).take 57 ++ "...".toList ∧
          (generateTitle text).length = 60 ∧
          ∃ u, generateTitle text = u ++ "...".toList)) ∧
    generateTitle [] = "無題の記事".toList ∧
    generateTitle (List.replicate 100 'A') =
      List.replicate 57 'A' ++ "...".toList := by
  refine ⟨?_, ?_, by decide, by decide⟩
  · intro text h
    simp [generateTitle, h]
  · intro text l0 ls h
    constructor
    · intro hle
      have : ¬ 60 < (jsTrim (stripHashWs l0)).length := by omega
      simp [generateTitle, h, this]
    · intro hgt
      have heq : generateTitle text =
          (jsTrim (stripHashWs l0)).take 57 ++ "...".toList := by
        simp [generateTitle, h, hgt]
      refine ⟨heq, ?_, ⟨(jsTrim (stripHashWs l0)).take 57, heq⟩⟩
      rw [heq]
      have h57 : ((jsTrim (stripHashWs l0)).take 57).length = 57 := by
        rw [List.length_take]
        omega
      simp [h57]

/-- C6 witness: the truncation branch at the 100-character input. -/
theorem c6_generateTitle_spec_witness :
    generateTitle (List.replicate 100 'A') =
      (jsTrim (stripHashWs (List.replicate 100 'A'))).take 57 ++ "...".toList ∧
    (generateTitle (List.replicate 100 'A')).length = 60 :=
  ⟨(c6_generateTitle_spec.2.1 (List.replicate 100 'A') (List.replicate 100 'A')
      [] (by decide)).2 (by decide) |>.1,
   (c6_generateTitle_spec.2.1 (List.replicate 100 'A') (List.replicate 100 'A')
      [] (by decide)).2 (by decide) |>.2.1⟩

/-- C8: deriveDescription returns the joined, whitespace-collapsed, trimmed
body of the non-blank lines after the first; empty body gives the empty
string, a body of at most 120 characters is returned unchanged, a longer body
is cut to 117 characters plus the three-dot ellipsis, and the result never
exceeds 120 characters. -/
theorem c8_generateDescription_spec (text : List Char) :
    (generateDescription text).length ≤ 120 ∧
    (descBody text = [] → generateDescription text = []) ∧
    (descBody text ≠ [] → (descBody text).length ≤ 120 →
      generateDescription text = descBody text) ∧
    (120 < (descBody text).length →
      generateDescription text = (descBody text).take 117 ++ "...".toList ∧
      (generateDescription text).length = 120) := by
  have h117 : 120 < (descBody text).length →
      ((descBody text).take 117).length = 117 := by
    intro h
    rw [List.length_take]
    omega
  refine ⟨?_, ?_, ?_, ?_⟩
  · by_cases h0 : descBody text = []
    · simp [generateDescription, h0]
    · by_cases hle : (descBody text).length ≤ 120
      · simp [generateDescription, h0, hle]
      · have hgt : 120 < (descBody text).length := by omega
        simp [generateDescription, h0, hle, h117 hgt]
  · intro h0
    simp [generateDescription, h0]
  · intro h0 hle
    simp [generateDescription, h0, hle]
  · intro hgt
    have h0 : descBody text ≠ [] := by
      intro h
      rw [h] at hgt
      simp at hgt
    have hnle : ¬ (descBody text).length ≤ 120 := by omega
    constructor
    · simp [generateDescription, h0, hnle]
    · simp [generateDescription, h0, hnle, h117 hgt]

set_option maxRecDepth 4000 in
/-- C8 witness: a 130-character body is truncated to exactly 120 characters. -/
theorem c8_generateDescription_spec_witness :
    generateDescription ( "t\n".toList ++ List.replicate 130 'B') =
      (descBody ( "t\n".toList ++ List.replicate 130 'B')).take 117 ++
        "...".toList ∧
    (generateDescription ( "t\n".toList ++ List.replicate 130 'B')).length = 120 :=
  (c8_generateDescription_spec ( "t\n".toList ++ List.replicate 130 'B')).2.2.2
    (by decide)

lemma replaceChar_append (c : Char) (rep : List Char) (l1 l2 : List Char) :
    replaceChar c rep (l1 ++ l2) = replaceChar c rep l1 ++ replaceChar c rep l2 := by
  induction l1 with
  | nil => simp [replaceChar]
  | cons d rest ih =>
    by_cases h : d = c
    · simp [replaceChar, h, ih]
    · simp [replaceChar, h, ih]

lemma esc_cons_amp (rest : List Char) :
    esc ('&' :: rest) = "&amp;".toList ++ esc rest := by
  unfold esc
  rw [show replaceChar '&' ( "&amp;".toList) ('&' :: rest) =
      "&amp;".toList ++ replaceChar '&' ( "&amp;".toList) rest from by
    simp [replaceChar]]
  rw [replaceChar_append, replaceChar_append]
  rfl

lemma esc_cons_lt (rest : List Char) :
    esc ('<' :: rest) = "&lt;".toList ++ esc rest := by
  unfold esc
  rw [show replaceChar '&' ( "&amp;".toList) ('<' :: rest) =
      '<' :: replaceChar '&' ( "&amp;".toList) rest from by simp [replaceChar]]
  rw [show replaceChar '<' ( "&lt;".toList)
        ('<' :: replaceChar '&' ( "&amp;".toList) rest) =
      "&lt;".toList ++
        replaceChar '<' ( "&lt;".toList) (replaceChar '&' ( "&amp;".toList) rest)
    from by simp [replaceChar]]
  rw [replaceChar_append]
  rfl

lemma esc_cons_gt (rest : List Char) :
    esc ('>' :: rest) = "&gt;".toList ++ esc rest := by
  unfold esc
  rw [show replaceChar '&' ( "&amp;".toList) ('>' :: rest) =
      '>' :: replaceChar '&' ( "&amp;".toList) rest from by simp [replaceChar]]
  rw [show replaceChar '<' ( "&lt;".toList)
        ('>' :: replaceChar '&' ( "&amp;".toList) rest) =
      '>' :: replaceChar '<' ( "&lt;".toList) (replaceChar '&' ( "&amp;".toList) rest)
    from by simp [replaceChar]]
  rw [show replaceChar '>' ( "&gt;".toList)
        ('>' :: replaceChar '<' ( "&lt;".toList)
          (replaceChar '&' ( "&amp;".toList) rest)) =
      "&gt;".toList ++ replaceChar '>' ( "&gt;".toList)
        (replaceChar '<' ( "&lt;".toList) (replaceChar '&' ( "&amp;".toList) rest))
    from by simp [replaceChar]]

lemma esc_cons_other (c : Char) (rest : List Char) (h1 : c ≠ '&') (h2 : c ≠ '<')
    (h3 : c ≠ '>') : esc (c :: rest) = c :: esc rest := by
  unfold esc
  rw [show replaceChar '&' ( "&amp;".toList) (c :: rest) =
      c :: replaceChar '&' ( "&amp;".toList) rest from by simp [replaceChar, h1]]
  rw [show replaceChar '<' ( "&lt;".toList)
        (c :: replaceChar '&' ( "&amp;".toList) rest) =
      c :: replaceChar '<' ( "&lt;".toList) (replaceChar '&' ( "&amp;".toList) rest)
    from by simp [replaceChar, h2]]
  rw [show replaceChar '>' ( "&gt;".toList)
        (c :: replaceChar '<' ( "&lt;".toList)
          (replaceChar '&' ( "&amp;".toList) rest)) =
      c :: replaceChar '>' ( "&gt;".toList)
        (replaceChar '<' ( "&lt;".toList) (replaceChar '&' ( "&amp;".toList) rest))
    from by simp [replaceChar, h3]]

/-- C5: the escaping of line content replaces exactly the three characters
ampersand, less-than and greater-than, ampersand first so that each source
character is escaped exactly once; and the script line normalizes to a
paragraph whose three special characters are each escaped once. -/
theorem c5_escape_spec :
    (∀ s : List Char, esc s = escSpec s) ∧
    textToHtml ( "<script>&</script>".toList) =
      "<p>&lt;script&gt;&amp;&lt;/script&gt;</p>".toList := by
  constructor
  · intro s
    induction s with
    | nil => rfl
    | cons c rest ih =>
      by_cases h1 : c = '&'
      · subst h1
        rw [esc_cons_amp, ih]
        simp [escSpec]
      · by_cases h2 : c = '<'
        · subst h2
          rw [esc_cons_lt, ih]
          simp [escSpec]
        · by_cases h3 : c = '>'
          · subst h3
            rw [esc_cons_gt, ih]
            simp [escSpec]
          · rw [esc_cons_other c rest h1 h2 h3, ih]
            simp [escSpec, h1, h2, h3]
  · decide

lemma le_foldr_max (x : Nat) : ∀ L : List Nat, x ∈ L → x ≤ L.foldr max 0 := by
  intro L
  induction L with
  | nil => intro h; exact absurd h (List.not_mem_nil x)
  | cons a t ih =>
    intro h
    rcases List.mem_cons.mp h with h | h
    · subst h
      exact Nat.le_max_left _ _
    · exact Nat.le_trans (ih h) (Nat.le_max_right _ _)

lemma foldr_max_le (m : Nat) : ∀ L : List Nat, (∀ x ∈ L, x ≤ m) →
    L.foldr max 0 ≤ m := by
  intro L
  induction L with
  | nil => intro _; exact Nat.zero_le m
  | cons a t ih =>
    intro h
    exact Nat.max_le.mpr ⟨h a (List.mem_cons_self a t),
      ih (fun x hx => h x (List.mem_cons_of_mem a hx))⟩

/-- First-max characterization of the fold used by detectCategory: the result
is either the untouched initial pair when no score strictly exceeds the
initial best, or an element of the list whose score strictly exceeds the
initial best and every earlier score, and is not exceeded by any later one. -/
lemma detectFold :
    ∀ (l : List (List Char × Nat)) (b0 : List Char) (s0 : Nat),
      ∃ r, l.foldl (fun acc p => if acc.2 < p.2 then p else acc) (b0, s0) = r ∧
        ((r = (b0, s0) ∧ ∀ q ∈ l, q.2 ≤ s0) ∨
         (s0 < r.2 ∧ ∃ pre post, l = pre ++ r :: post ∧
           (∀ q ∈ pre, q.2 < r.2) ∧ (∀ q ∈ post, q.2 ≤ r.2))) := by
  intro l
  induction l with
  | nil =>
    intro b0 s0
    exact ⟨(b0, s0), rfl, Or.inl ⟨rfl, by simp⟩⟩
  | cons p l' ih =>
    intro b0 s0
    by_cases h : s0 < p.2
    · obtain ⟨r, hr, hcase⟩ := ih p.1 p.2
      refine ⟨r, ?_, ?_⟩
      · simpa [List.foldl_cons, h] using hr
      · rcases hcase with ⟨hre, hall⟩ | ⟨hlt, pre, post, hsplit, hpre, hpost⟩
        · refine Or.inr ⟨?_, [], l', ?_, by simp, ?_⟩
          · rw [hre]; exact h
          · rw [hre]; simp
          · intro q hq
            rw [hre]
            exact hall q hq
        · refine Or.inr ⟨Nat.lt_trans h hlt, p :: pre, post, ?_, ?_, hpost⟩
          · rw [List.cons_append, ← hsplit]
          · intro q hq
            rcases List.mem_cons.mp hq with hq | hq
            · subst hq; exact hlt
            · exact hpre q hq
    · obtain ⟨r, hr, hcase⟩ := ih b0 s0
      refine ⟨r, ?_, ?_⟩
      · simpa [List.foldl_cons, h] using hr
      · rcases hcase with ⟨hre, hall⟩ | ⟨hlt, pre, post, hsplit, hpre, hpost⟩
        · refine Or.inl ⟨hre, ?_⟩
          intro q hq
          rcases List.mem_cons.mp hq with hq | hq
          · subst hq; omega
          · exact hall q hq
        · refine Or.inr ⟨hlt, p :: pre, post, ?_, ?_, hpost⟩
          · rw [List.cons_append, ← hsplit]
          · intro q hq
            rcases List.mem_cons.mp hq with hq | hq
            · subst hq; omega
            · exact hpre q hq

/-- C7: deriveCategory sums case-insensitive keyword occurrence counts per
label and returns the label bearing the highest score, the first such label
in declared order on ties, and the first label when every score is zero: the
scores list splits around the returned label paired with the maximal score,
with every earlier label scoring strictly less. -/
theorem c7_detectCategory_spec (text : List Char) :
    ∃ pre post,
      catScores text = pre ++ (detectCategory text, maxScore text) :: post ∧
      ∀ q ∈ pre, q.2 < maxScore text := by
  obtain ⟨r, hr, hcase⟩ := detectFold (catScores text) (CATEGORIES.headD []) 0
  have hdet : detectCategory text = r.1 := by
    rw [detectCategory, hr]
  rcases hcase with ⟨hre, hall⟩ | ⟨hlt, pre, post, hsplit, hpre, hpost⟩
  · have hne : catScores text ≠ [] := by
      simp [catScores, CATEGORY_KEYWORDS]
    have hsplit : (catScores text).head hne :: (catScores text).tail =
        catScores text := List.head_cons_tail _ hne
    have hh1 : ((catScores text).head hne).1 = "インタビュー".toList := by
      rw [show (catScores text).head hne =
          ( "インタビュー".toList,
            scoreKeywords text (CATEGORY_KEYWORDS.headD ([], [])).2) from rfl]
    have hh2 : ((catScores text).head hne).2 = 0 :=
      Nat.le_antisymm (hall _ (List.head_mem hne)) (Nat.zero_le _)
    have hmax : maxScore text = 0 := by
      refine Nat.le_antisymm (foldr_max_le 0 _ ?_) (Nat.zero_le _)
      intro x hx
      rcases List.mem_map.mp hx with ⟨q, hq, hxq⟩
      rw [← hxq]
      exact hall q hq
    have hdet0 : detectCategory text = "インタビュー".toList := by
      rw [hdet, hre]
      rfl
    refine ⟨[], (catScores text).tail, ?_, by simp⟩
    rw [List.nil_append, hdet0, hmax]
    conv_lhs => rw [← hsplit]
    rw [show ((catScores text).head hne) =
        ( "インタビュー".toList, 0) from Prod.ext hh1 hh2]
  · have hmem : r ∈ catScores text := by
      rw [hsplit]
      exact List.mem_append_right _ (List.mem_cons_self _ _)
    have hmax : maxScore text = r.2 := by
      refine Nat.le_antisymm ?_ ?_
      · refine foldr_max_le r.2 _ ?_
        intro x hx
        rcases List.mem_map.mp hx with ⟨q, hq, hxq⟩
        rw [← hxq]
        rw [hsplit] at hq
        rcases List.mem_append.mp hq with hq | hq
        · exact Nat.le_of_lt (hpre q hq)
        · rcases List.mem_cons.mp hq with hq | hq
          · subst hq; exact Nat.le_refl _
          · exact hpost q hq
      · exact le_foldr_max r.2 _ (List.mem_map.mpr ⟨r, hmem, rfl⟩)
    refine ⟨pre, post, ?_, ?_⟩
    · rw [hdet, hmax, show (r.1, r.2) = r from rfl]
      exact hsplit
    · intro q hq
      rw [hmax]
      exact hpre q hq

/-- Characterization of the selectBestImage scan: starting from the first path
with best size zero, the result is either the untouched initial pair (when no
stat returns a size above the initial best) or a path whose determined size
strictly exceeds the initial best and every earlier determined size, and is
not exceeded by any later determined size. -/
lemma selectFold (statSize : List Char → Option Nat) :
    ∀ (l : List (List Char)) (b0 : List Char) (s0 : Nat),
      ∃ r, l.foldl (fun acc p =>
          match statSize p with
          | some sz => if acc.2 < sz then (p, sz) else acc
          | none => acc) (b0, s0) = r ∧
        ((r = (b0, s0) ∧ ∀ p ∈ l, ∀ t, statSize p = some t → t ≤ s0) ∨
         (s0 < r.2 ∧ statSize r.1 = some r.2 ∧
           ∃ pre post, l = pre ++ r.1 :: post ∧
             (∀ p ∈ pre, ∀ t, statSize p = some t → t < r.2) ∧
             (∀ p ∈ post, ∀ t, statSize p = some t → t ≤ r.2))) := by
  intro l
  induction l with
  | nil =>
    intro b0 s0
    exact ⟨(b0, s0), rfl, Or.inl ⟨rfl, by simp⟩⟩
  | cons p l' ih =>
    intro b0 s0
    cases hs : statSize p with
    | none =>
      obtain ⟨r, hr, hcase⟩ := ih b0 s0
      refine ⟨r, by simpa [List.foldl_cons, hs] using hr, ?_⟩
      rcases hcase with ⟨hre, hall⟩ | ⟨hlt, hstat, pre, post, hsplit, hpre, hpost⟩
      · refine Or.inl ⟨hre, ?_⟩
        intro x hx t hxt
        rcases List.mem_cons.mp hx with hx | hx
        · subst hx; rw [hs] at hxt; exact Option.noConfusion hxt
        · exact hall x hx t hxt
      · refine Or.inr ⟨hlt, hstat, p :: pre, post, ?_, ?_, hpost⟩
        · rw [List.cons_append, ← hsplit]
        · intro x hx t hxt
          rcases List.mem_cons.mp hx with hx | hx
          · subst hx; rw [hs] at hxt; exact Option.noConfusion hxt
          · exact hpre x hx t hxt
    | some sz =>
      by_cases h : s0 < sz
      · obtain ⟨r, hr, hcase⟩ := ih p sz
        refine ⟨r, by simpa [List.foldl_cons, hs, h] using hr, ?_⟩
        rcases hcase with ⟨hre, hall⟩ | ⟨hlt, hstat, pre, post, hsplit, hpre, hpost⟩
        · refine Or.inr ⟨?_, ?_, [], l', ?_, by simp, ?_⟩
          · rw [hre]; exact h
          · rw [hre]; exact hs
          · rw [hre]; simp
          · intro x hx t hxt
            rw [hre]
            exact hall x hx t hxt
        · refine Or.inr ⟨Nat.lt_trans h hlt, hstat, p :: pre, post, ?_, ?_, hpost⟩
          · rw [List.cons_append, ← hsplit]
          · intro x hx t hxt
            rcases List.mem_cons.mp hx with hx | hx
            · subst hx
              rw [hs] at hxt
              have := Option.some.inj hxt
              omega
            · exact hpre x hx t hxt
      · obtain ⟨r, hr, hcase⟩ := ih b0 s0
        refine ⟨r, by simpa [List.foldl_cons, hs, h] using hr, ?_⟩
        rcases hcase with ⟨hre, hall⟩ | ⟨hlt, hstat, pre, post, hsplit, hpre, hpost⟩
        · refine Or.inl ⟨hre, ?_⟩
          intro x hx t hxt
          rcases List.mem_cons.mp hx with hx | hx
          · subst hx
            rw [hs] at hxt
            have := Option.some.inj hxt
            omega
          · exact hall x hx t hxt
        · refine Or.inr ⟨hlt, hstat, p :: pre, post, ?_, ?_, hpost⟩
          · rw [List.cons_append, ← hsplit]
          · intro x hx t hxt
            rcases List.mem_cons.mp hx with hx | hx
            · subst hx
              rw [hs] at hxt
              have := Option.some.inj hxt
              omega
            · exact hpre x hx t hxt

/-- C2 counterexample: with a first path whose size cannot be determined and a
second path of determined size zero, the scan returns the undetermined first
path instead of skipping it, because the initial candidate is the first path
with best size zero and a zero-byte file can never beat it. -/
theorem c2_counterexample :
    selectBestImage
      (fun p => if p = "missing.jpg".toList then none else some 0)
      [ "missing.jpg".toList, "empty.jpg".toList ] =
      some ( "missing.jpg".toList) ∧
    (fun p => if p = "missing.jpg".toList then none else some 0)
      ( "missing.jpg".toList) = none ∧
    (fun p => if p = "missing.jpg".toList then none else some 0)
      ( "empty.jpg".toList) = some 0 ∧
    "missing.jpg".toList ≠ "empty.jpg".toList := by
  refine ⟨by decide, by decide, by decide, by decide⟩

/-- C2 amended: empty input gives none and a single path is returned
unchanged; with two or more paths, the result is the first path whenever every
determined size is zero (even if the first path's own size cannot be
determined), and otherwise it is the earliest path achieving the maximal
determined size, which is then positive; undetermined sizes never cause a
failure. -/
theorem c2_selectBestImage_amended (statSize : List Char → Option Nat) :
    selectBestImage statSize [] = none ∧
    (∀ p, selectBestImage statSize [p] = some p) ∧
    (∀ (p0 q : List Char) (rest : List (List Char)),
      ∃ r, selectBestImage statSize (p0 :: q :: rest) = some r ∧
        ((∀ p ∈ p0 :: q :: rest, ∀ t, statSize p = some t → t = 0) → r = p0) ∧
        ((∃ p ∈ p0 :: q :: rest, ∃ t, statSize p = some t ∧ 0 < t) →
          ∃ s, statSize r = some s ∧ 0 < s ∧
            (∀ p ∈ p0 :: q :: rest, ∀ t, statSize p = some t → t ≤ s) ∧
            ∃ pre post, p0 :: q :: rest = pre ++ r :: post ∧
              ∀ p ∈ pre, ∀ t, statSize p = some t → t < s)) := by
  refine ⟨rfl, fun p => rfl, ?_⟩
  intro p0 q rest
  obtain ⟨r, hr, hcase⟩ := selectFold statSize (p0 :: q :: rest) p0 0
  refine ⟨r.1, ?_, ?_, ?_⟩
  · simp only [selectBestImage, hr]
  · intro hzero
    rcases hcase with ⟨hre, _⟩ | ⟨hlt, hstat, pre, post, hsplit, hpre, hpost⟩
    · rw [hre]
    · have hmem : r.1 ∈ p0 :: q :: rest := by
        rw [hsplit]
        exact List.mem_append_right _ (List.mem_cons_self _ _)
      have := hzero r.1 hmem r.2 hstat
      omega
  · rintro ⟨p, hp, t, hst, ht⟩
    rcases hcase with ⟨hre, hall⟩ | ⟨hlt, hstat, pre, post, hsplit, hpre, hpost⟩
    · have := hall p hp t hst
      omega
    · refine ⟨r.2, hstat, hlt, ?_, pre, post, hsplit, hpre⟩
      intro x hx u hxu
      rw [hsplit] at hx
      rcases List.mem_append.mp hx with hx | hx
      · exact Nat.le_of_lt (hpre x hx u hxu)
      · rcases List.mem_cons.mp hx with hx | hx
        · subst hx
          rw [hstat] at hxu
          rw [Option.some.inj hxu]
        · exact hpost x hx u hxu

/-- C2 amended witness: with determined sizes 10 and 20 bytes the 20-byte
path is selected. -/
theorem c2_selectBestImage_amended_witness :
    ∃ r, selectBestImage
        (fun p => if p = "a.jpg".toList then some 10 else some 20)
        [ "a.jpg".toList, "b.jpg".toList ] = some r ∧
      ∃ s, (fun p => if p = "a.jpg".toList then some 10 else some 20) r =
          some s ∧ 0 < s ∧
        (∀ p ∈ [ "a.jpg".toList, "b.jpg".toList ], ∀ t,
          (fun p => if p = "a.jpg".toList then some 10 else some 20) p =
            some t → t ≤ s) ∧
        ∃ pre post, [ "a.jpg".toList, "b.jpg".toList ] = pre ++ r :: post ∧
          ∀ p ∈ pre, ∀ t,
            (fun p => if p = "a.jpg".toList then some 10 else some 20) p =
              some t → t < s := by
  obtain ⟨r, hr, -, hpos⟩ :=
    (c2_selectBestImage_amended
      (fun p => if p = "a.jpg".toList then some 10 else some 20)).2.2
      ( "a.jpg".toList) ( "b.jpg".toList) []
  exact ⟨r, hr, hpos ⟨ "b.jpg".toList, by decide, 20, by decide, by decide⟩⟩

lemma isPre_cons_ne (a : Char) (p' : List Char) (c : Char) (l : List Char)
    (h : a ≠ c) : isPre (a :: p') (c :: l) = false := by
  simp [isPre, h]

lemma countAux_cons_step (pat : List Char) (c : Char) (rest : List Char)
    (h : isPre pat (c :: rest) = false) :
    countOccurAux pat (c :: rest) 0 = countOccurAux pat rest 0 := by
  simp [countOccurAux, h]

lemma countAux_skip (a : Char) (p' : List Char) :
    ∀ m r : List Char, a ∉ m →
      countOccurAux (a :: p') (m ++ r) 0 = countOccurAux (a :: p') r 0 := by
  intro m
  induction m with
  | nil => intro r _; rfl
  | cons c m' ih =>
    intro r hm
    have hac : a ≠ c := by
      intro h
      exact hm (h ▸ List.mem_cons_self c m')
    rw [List.cons_append, countAux_cons_step _ _ _ (isPre_cons_ne a p' c _ hac)]
    exact ih r (fun h => hm (List.mem_cons_of_mem c h))

lemma isPre_extend : ∀ p f t : List Char, isPre p f = true →
    isPre p (f ++ t) = true := by
  intro p
  induction p with
  | nil => intro f t _; rfl
  | cons a p' ih =>
    intro f t h
    cases f with
    | nil => exact absurd h (by simp [isPre])
    | cons b f' =>
      rw [List.cons_append]
      by_cases hab : a = b
      · rw [isPre, if_pos hab] at h ⊢
        exact ih f' t h
      · rw [isPre, if_neg hab] at h
        exact Bool.noConfusion h

lemma isPre_split (x : Char) : ∀ p : List Char, x ∉ p → ∀ f r : List Char,
    isPre p (f ++ x :: r) = true → isPre p f = true ∧ p.length ≤ f.length := by
  intro p
  induction p with
  | nil => intro _ f r _; exact ⟨rfl, Nat.zero_le _⟩
  | cons a p' ih =>
    intro hx f r h
    have hax : a ≠ x := by
      intro he
      exact hx (he ▸ List.mem_cons_self a p')
    cases f with
    | nil =>
      rw [List.nil_append, isPre, if_neg (fun he => hax he)] at h
      exact Bool.noConfusion h
    | cons b f' =>
      rw [List.cons_append] at h
      by_cases hab : a = b
      · rw [isPre, if_pos hab] at h
        obtain ⟨h1, h2⟩ := ih (fun hm => hx (List.mem_cons_of_mem a hm)) f' r h
        refine ⟨?_, ?_⟩
        · rw [isPre, if_pos hab]
          exact h1
        · simpa [List.length_cons] using Nat.succ_le_succ h2
      · rw [isPre, if_neg hab] at h
        exact Bool.noConfusion h

lemma countAux_split (pat : List Char) (hne : pat ≠ []) (x : Char)
    (hx : x ∉ pat) : ∀ (f r : List Char) (skip : Nat), skip ≤ f.length →
      countOccurAux pat (f ++ x :: r) skip =
        countOccurAux pat f skip + countOccurAux pat r 0 := by
  intro f
  induction f with
  | nil =>
    intro r skip hskip
    have h0 : skip = 0 := Nat.le_zero.mp hskip
    subst h0
    obtain ⟨p0, pt, hp⟩ : ∃ p0 pt, pat = p0 :: pt := by
      cases pat with
      | nil => exact absurd rfl hne
      | cons p0 pt => exact ⟨p0, pt, rfl⟩
    have hp0x : p0 ≠ x := by
      intro he
      exact hx (hp ▸ he ▸ List.mem_cons_self p0 pt)
    rw [List.nil_append, hp,
      countAux_cons_step _ _ _ (isPre_cons_ne p0 pt x r (hp0x))]
    simp [countOccurAux]
  | cons c f' ih =>
    intro r skip hskip
    cases skip with
    | succ k =>
      rw [List.cons_append,
        show countOccurAux pat (c :: (f' ++ x :: r)) (k + 1) =
          countOccurAux pat (f' ++ x :: r) k from rfl,
        show countOccurAux pat (c :: f') (k + 1) =
          countOccurAux pat f' k from rfl]
      exact ih r k (Nat.le_of_succ_le_succ hskip)
    | zero =>
      by_cases hpre : isPre pat ((c :: f') ++ x :: r) = true
      · obtain ⟨hpf, hlen⟩ := isPre_split x pat hx (c :: f') r hpre
        have hlen' : pat.length - 1 ≤ f'.length := by
          have : 1 ≤ pat.length := by
            cases pat with
            | nil => exact absurd rfl hne
            | cons _ _ => simp
          simp [List.length_cons] at hlen
          omega
        rw [List.cons_append,
          show countOccurAux pat (c :: (f' ++ x :: r)) 0 =
            if isPre pat (c :: (f' ++ x :: r)) ∧ pat ≠ [] then
              1 + countOccurAux pat (f' ++ x :: r) (pat.length - 1)
            else countOccurAux pat (f' ++ x :: r) 0 from rfl,
          show countOccurAux pat (c :: f') 0 =
            if isPre pat (c :: f') ∧ pat ≠ [] then
              1 + countOccurAux pat f' (pat.length - 1)
            else countOccurAux pat f' 0 from rfl]
        rw [if_pos ⟨by rw [← List.cons_append]; exact hpre, hne⟩,
          if_pos ⟨hpf, hne⟩]
        rw [ih r (pat.length - 1) hlen']
        omega
      · have hpf : isPre pat (c :: f') = false := by
          cases hq : isPre pat (c :: f') with
          | false => rfl
          | true =>
            exact absurd (by
              have := isPre_extend pat (c :: f') (x :: r) hq
              simpa using this) hpre
        have hpre' : isPre pat (c :: (f' ++ x :: r)) = false := by
          cases hq : isPre pat (c :: (f' ++ x :: r)) with
          | false => rfl
          | true => exact absurd (by simpa using hq) hpre
        rw [List.cons_append, countAux_cons_step _ _ _ hpre',
          countAux_cons_step _ _ _ hpf]
        exact ih r 0 (Nat.zero_le _)

lemma countOccur_joinSep (pat : List Char) (hne : pat ≠ [])
    (hnl : '\n' ∉ pat) : ∀ frags : List (List Char),
      countOccur pat (joinSep ['\n'] frags) =
        (frags.map (countOccur pat)).sum := by
  intro frags
  induction frags with
  | nil =>
    rw [show joinSep ['\n'] [] = [] from rfl]
    rw [show countOccur pat [] = 0 from rfl]
    simp
  | cons f frags' ih =>
    cases frags' with
    | nil => simp [joinSep, countOccur]
    | cons g t =>
      rw [show joinSep ['\n'] (f :: g :: t) =
        f ++ '\n' :: joinSep ['\n'] (g :: t) from by simp [joinSep]]
      rw [countOccur, countAux_split pat hne '\n' hnl f _ 0 (Nat.zero_le _)]
      rw [List.map_cons, List.sum_cons]
      rw [show countOccurAux pat f 0 = countOccur pat f from rfl,
        show countOccurAux pat (joinSep ['\n'] (g :: t)) 0 =
          countOccur pat (joinSep ['\n'] (g :: t)) from rfl]
      rw [ih]

lemma not_mem_replaceChar_self (c : Char) (rep : List Char) (l : List Char)
    (h : c ∉ rep) : c ∉ replaceChar c rep l := by
  induction l with
  | nil => simp [replaceChar]
  | cons d rest ih =>
    by_cases hd : d = c
    · simp only [replaceChar, if_pos hd]
      intro hmem
      rcases List.mem_append.mp hmem with hm | hm
      · exact h hm
      · exact ih hm
    · simp only [replaceChar, if_neg hd]
      intro hmem
      rcases List.mem_cons.mp hmem with hm | hm
      · exact hd (hm ▸ rfl)
      · exact ih hm

lemma not_mem_replaceChar (c : Char) (rep : List Char) (d : Char)
    (l : List Char) (h1 : d ∉ rep) (h2 : d ∉ l) : d ∉ replaceChar c rep l := by
  induction l with
  | nil => simp [replaceChar]
  | cons e rest ih =>
    have hd2 : d ∉ rest := fun hm => h2 (List.mem_cons_of_mem e hm)
    by_cases he : e = c
    · simp only [replaceChar, if_pos he]
      intro hmem
      rcases List.mem_append.mp hmem with hm | hm
      · exact h1 hm
      · exact ih hd2 hm
    · simp only [replaceChar, if_neg he]
      intro hmem
      rcases List.mem_cons.mp hmem with hm | hm
      · exact h2 (hm ▸ List.mem_cons_self e rest)
      · exact ih hd2 hm

/-- The escaped content of a fragment never contains a literal less-than
character, so no tag marker can occur inside it. -/
lemma lt_not_mem_esc (s : List Char) : '<' ∉ esc s := by
  unfold esc
  refine not_mem_replaceChar '>' ( "&gt;".toList) '<' _ (by decide) ?_
  exact not_mem_replaceChar_self '<' ( "&lt;".toList) _ (by decide)

lemma count_frag_h1 (m : List Char) (hm : '<' ∉ m) :
    countOccur ['<', 'u', 'l', '>']
      ('<' :: 'h' :: '1' :: '>' :: (m ++ ['<', '/', 'h', '1', '>'])) = 0 ∧
    countOccur ['<', '/', 'u', 'l', '>']
      ('<' :: 'h' :: '1' :: '>' :: (m ++ ['<', '/', 'h', '1', '>'])) = 0 := by
  constructor
  · rw [countOccur]
    simp [countOccurAux, isPre]
    rw [countAux_skip '<' _ m _ hm]
    decide
  · rw [countOccur]
    simp [countOccurAux, isPre]
    rw [countAux_skip '<' _ m _ hm]
    decide

lemma count_frag_h2 (m : List Char) (hm : '<' ∉ m) :
    countOccur ['<', 'u', 'l', '>']
      ('<' :: 'h' :: '2' :: '>' :: (m ++ ['<', '/', 'h', '2', '>'])) = 0 ∧
    countOccur ['<', '/', 'u', 'l', '>']
      ('<' :: 'h' :: '2' :: '>' :: (m ++ ['<', '/', 'h', '2', '>'])) = 0 := by
  constructor
  · rw [countOccur]
    simp [countOccurAux, isPre]
    rw [countAux_skip '<' _ m _ hm]
    decide
  · rw [countOccur]
    simp [countOccurAux, isPre]
    rw [countAux_skip '<' _ m _ hm]
    decide

lemma count_frag_h3 (m : List Char) (hm : '<' ∉ m) :
    countOccur ['<', 'u', 'l', '>']
      ('<' :: 'h' :: '3' :: '>' :: (m ++ ['<', '/', 'h', '3', '>'])) = 0 ∧
    countOccur ['<', '/', 'u', 'l', '>']
      ('<' :: 'h' :: '3' :: '>' :: (m ++ ['<', '/', 'h', '3', '>'])) = 0 := by
  constructor
  · rw [countOccur]
    simp [countOccurAux, isPre]
    rw [countAux_skip '<' _ m _ hm]
    decide
  · rw [countOccur]
    simp [countOccurAux, isPre]
    rw [countAux_skip '<' _ m _ hm]
    decide

lemma count_frag_li (m : List Char) (hm : '<' ∉ m) :
    countOccur ['<', 'u', 'l', '>']
      ('<' :: 'l' :: 'i' :: '>' :: (m ++ ['<', '/', 'l', 'i', '>'])) = 0 ∧
    countOccur ['<', '/', 'u', 'l', '>']
      ('<' :: 'l' :: 'i' :: '>' :: (m ++ ['<', '/', 'l', 'i', '>'])) = 0 := by
  constructor
  · rw [countOccur]
    simp [countOccurAux, isPre]
    rw [countAux_skip '<' _ m _ hm]
    decide
  · rw [countOccur]
    simp [countOccurAux, isPre]
    rw [countAux_skip '<' _ m _ hm]
    decide

lemma count_frag_p (m : List Char) (hm : '<' ∉ m) :
    countOccur ['<', 'u', 'l', '>']
      ('<' :: 'p' :: '>' :: (m ++ ['<', '/', 'p', '>'])) = 0 ∧
    countOccur ['<', '/', 'u', 'l', '>']
      ('<' :: 'p' :: '>' :: (m ++ ['<', '/', 'p', '>'])) = 0 := by
  constructor
  · rw [countOccur]
    simp [countOccurAux, isPre]
    rw [countAux_skip '<' _ m _ hm]
    decide
  · rw [countOccur]
    simp [countOccurAux, isPre]
    rw [countAux_skip '<' _ m _ hm]
    decide

lemma count_open_open :
    countOccur ['<', 'u', 'l', '>'] ['<', 'u', 'l', '>'] = 1 := by decide

lemma count_close_open :
    countOccur ['<', '/', 'u', 'l', '>'] ['<', 'u', 'l', '>'] = 0 := by decide

lemma count_open_close :
    countOccur ['<', 'u', 'l', '>'] ['<', '/', 'u', 'l', '>'] = 0 := by decide

lemma count_close_close :
    countOccur ['<', '/', 'u', 'l', '>'] ['<', '/', 'u', 'l', '>'] = 1 := by decide

/-- Loop invariant of textToHtml: over the fragments emitted from any line
list with a given open-list flag, the close markers outnumber the open
markers by exactly one when a list block is open on entry, and match exactly
otherwise. -/
lemma frags_balance : ∀ (lines : List (List Char)) (b : Bool),
    ((textToHtmlFrags lines b).map (countOccur ['<', '/', 'u', 'l', '>'])).sum =
      ((textToHtmlFrags lines b).map (countOccur ['<', 'u', 'l', '>'])).sum +
        (if b then 1 else 0) := by
  intro lines
  induction lines with
  | nil =>
    intro b
    cases b <;> simp [textToHtmlFrags, count_close_close, count_open_close]
  | cons raw rest ih =>
    intro b
    cases hcl : classifyLine (trimEnd raw) with
    | h1 m =>
      have hc := count_frag_h1 (esc m) (lt_not_mem_esc m)
      cases b <;>
        (simp [textToHtmlFrags, hcl, hc.1, hc.2, ih false,
          count_close_close, count_open_close]; try omega)
    | h2 m =>
      have hc := count_frag_h2 (esc m) (lt_not_mem_esc m)
      cases b <;>
        (simp [textToHtmlFrags, hcl, hc.1, hc.2, ih false,
          count_close_close, count_open_close]; try omega)
    | h3 m =>
      have hc := count_frag_h3 (esc m) (lt_not_mem_esc m)
      cases b <;>
        (simp [textToHtmlFrags, hcl, hc.1, hc.2, ih false,
          count_close_close, count_open_close]; try omega)
    | item m =>
      have hc := count_frag_li (esc m) (lt_not_mem_esc m)
      cases b <;>
        (simp [textToHtmlFrags, hcl, hc.1, hc.2, ih true,
          count_close_open, count_open_open]; try omega)
    | blank =>
      cases b <;>
        (simp [textToHtmlFrags, hcl, ih false,
          count_close_close, count_open_close]; try omega)
    | para =>
      have hc := count_frag_p (esc (trimEnd raw)) (lt_not_mem_esc (trimEnd raw))
      cases b <;>
        (simp [textToHtmlFrags, hcl, hc.1, hc.2, ih false,
          count_close_close, count_open_close]; try omega)

/-- C4: in the HTML string produced by textToHtml the number of list-open
markers equals the number of list-close markers. -/
theorem c4_ul_balance (text : List Char) :
    countOccur ( "<ul>".toList) (textToHtml text) =
      countOccur ( "</ul>".toList) (textToHtml text) := by
  rw [textToHtml]
  rw [countOccur_joinSep ( "<ul>".toList) (by decide) (by decide),
    countOccur_joinSep ( "</ul>".toList) (by decide) (by decide)]
  have h := frags_balance (splitNl text) false
  simpa using h.symm

set_option maxRecDepth 4000 in
/-- C9: the end-to-end scenario input with no explicit category yields the
category 制度 (the only keyword match, via 研修), the title Hello, the
description sentence, and HTML consisting of exactly one heading element and
one paragraph element. -/
theorem c9_end_to_end :
    detectCategory scenarioInput = "制度".toList ∧
    generateTitle scenarioInput = "Hello".toList ∧
    generateDescription scenarioInput = "This is a test about 研修.".toList ∧
    textToHtml scenarioInput =
      "<h1>Hello</h1>\n<p>This is a test about 研修.</p>".toList ∧
    (textToHtmlFrags (splitNl scenarioInput) false).countP
      (fun f => isPre ( "<h1>".toList) f || isPre ( "<h2>".toList) f ||
        isPre ( "<h3>".toList) f) = 1 ∧
    (textToHtmlFrags (splitNl scenarioInput) false).countP
      (fun f => isPre ( "<p>".toList) f) = 1 := by
  refine ⟨by decide, by decide, by decide, by decide, by decide, by decide⟩
